import Mathlib

set_option autoImplicit false

/-!
Shallow embedding of the translation-resolution core of the NextIntl-Helper
extension (translationUtils.js, commandHandlers.js, completionProvider.js,
textHighlighter.js), together with proofs about the embedded operations.

Translation dictionaries are parsed JSON objects whose leaves are strings.
JavaScript string values and object keys are modelled by Lean `String`;
property access is modelled as lookup of the own data properties of the
parsed JSON value (leaves are opaque string data).  JavaScript's
`path.split(".")`, template-literal joining, `startsWith`, `trim` and
`toLowerCase` are modelled by executable functions on the underlying
character lists.
-/

namespace NextIntl

/-! ## Character-level string primitives -/

/-- Model of the character class `\s` used by the JavaScript regexes
(`replace(/\s+/g, ".")`, `replace(/[^\w\s]/g, "")`). -/
def isSpaceChar (c : Char) : Bool :=
  c = ' ' || c = '\t' || c = '\n' || c = '\r' || c = '\x0b' || c = '\x0c'

/-- Model of the character class `\w` (`[A-Za-z0-9_]`) used by
`replace(/[^\w\s]/g, "")` in suggestTranslationKey. -/
def isWordChar (c : Char) : Bool :=
  ('a' ≤ c && c ≤ 'z') || ('A' ≤ c && c ≤ 'Z') || ('0' ≤ c && c ≤ '9') || c = '_'

/-- Helper for `splitCharList`: prepend a character to the first piece. -/
def prependHead (c : Char) : List (List Char) → List (List Char)
  | [] => [[c]]
  | h :: t => (c :: h) :: t

/-- Model of JavaScript `String.prototype.split` with a single-character
separator, on the underlying character list.  As in JavaScript,
`splitCharList sep []` is `[[]]` (the empty string splits into one empty
piece) and a trailing separator produces a trailing empty piece. -/
def splitCharList (sep : Char) : List Char → List (List Char)
  | [] => [[]]
  | c :: cs =>
    if c = sep then [] :: splitCharList sep cs
    else prependHead c (splitCharList sep cs)

/-- Join a list of pieces with a separator character; the inverse of
`splitCharList`. -/
def joinCharLists (sep : Char) : List (List Char) → List Char
  | [] => []
  | [x] => x
  | x :: y :: t => x ++ sep :: joinCharLists sep (y :: t)

theorem splitCharList_ne_nil (sep : Char) (l : List Char) :
    splitCharList sep l ≠ [] := by
  induction l with
  | nil => simp [splitCharList]
  | cons c cs ih =>
    simp only [splitCharList]
    split
    · simp
    · cases h : splitCharList sep cs with
      | nil => simp [prependHead]
      | cons a b => simp [prependHead]

theorem splitCharList_no_sep {sep : Char} {l : List Char}
    (h : ∀ c ∈ l, c ≠ sep) : splitCharList sep l = [l] := by
  induction l with
  | nil => rfl
  | cons c cs ih =>
    have hc : c ≠ sep := h c (by simp)
    have ih' := ih (fun d hd => h d (by simp [hd]))
    simp [splitCharList, hc, ih', prependHead]

theorem splitCharList_cons_ne (sep c : Char) (l : List Char) (hc : c ≠ sep) :
    splitCharList sep (c :: l) = prependHead c (splitCharList sep l) := by
  simp [splitCharList, hc]

theorem splitCharList_append (sep : Char) (xs ys : List Char) :
    splitCharList sep (xs ++ sep :: ys) =
      splitCharList sep xs ++ splitCharList sep ys := by
  induction xs with
  | nil => simp [splitCharList]
  | cons c cs ih =>
    by_cases hc : c = sep
    · subst hc; simp [splitCharList, ih]
    · rw [List.cons_append, splitCharList_cons_ne sep c _ hc,
        splitCharList_cons_ne sep c _ hc, ih]
      cases h : splitCharList sep cs with
      | nil => exact absurd h (splitCharList_ne_nil sep cs)
      | cons a b => simp [prependHead]

theorem mem_splitCharList_not_sep {sep : Char} {l : List Char} {p : List Char}
    (h : p ∈ splitCharList sep l) : sep ∉ p := by
  induction l generalizing p with
  | nil =>
    simp [splitCharList] at h
    simp [h]
  | cons c cs ih =>
    simp only [splitCharList] at h
    split at h
    · rcases List.mem_cons.mp h with h1 | h1
      · simp [h1]
      · exact ih h1
    · rename_i hc
      cases hsp : splitCharList sep cs with
      | nil => exact absurd hsp (splitCharList_ne_nil sep cs)
      | cons a b =>
        rw [hsp] at h
        simp only [prependHead] at h
        rcases List.mem_cons.mp h with h1 | h1
        · subst h1
          intro hmem
          rcases List.mem_cons.mp hmem with h2 | h2
          · exact hc h2.symm
          · exact ih (by rw [hsp]; exact List.mem_cons_self a b) h2
        · exact ih (by rw [hsp]; exact List.mem_cons_of_mem a h1)

theorem joinCharLists_prependHead (sep : Char) (c : Char)
    (ps : List (List Char)) (h : ps ≠ []) :
    joinCharLists sep (prependHead c ps) = c :: joinCharLists sep ps := by
  cases ps with
  | nil => exact absurd rfl h
  | cons a b =>
    cases b with
    | nil => rfl
    | cons a' b' => rfl

theorem joinCharLists_splitCharList (sep : Char) (l : List Char) :
    joinCharLists sep (splitCharList sep l) = l := by
  induction l with
  | nil => rfl
  | cons c cs ih =>
    by_cases hc : c = sep
    · simp only [splitCharList, if_pos hc]
      cases h : splitCharList sep cs with
      | nil => exact absurd h (splitCharList_ne_nil sep cs)
      | cons a b =>
        rw [h] at ih
        simp [joinCharLists, ih, hc]
    · simp only [splitCharList, hc, if_false]
      rw [joinCharLists_prependHead sep c _ (splitCharList_ne_nil sep cs), ih]

theorem splitCharList_joinCharLists (sep : Char) (ls : List (List Char))
    (h : ls ≠ []) (h2 : ∀ p ∈ ls, sep ∉ p) :
    splitCharList sep (joinCharLists sep ls) = ls := by
  induction ls with
  | nil => exact absurd rfl h
  | cons x t ih =>
    cases t with
    | nil =>
      simp only [joinCharLists]
      exact splitCharList_no_sep (fun c hc hce =>
        h2 x (by simp) (by rwa [hce] at hc))
    | cons y t' =>
      simp only [joinCharLists]
      rw [splitCharList_append]
      rw [ih (by simp) (fun p hp => h2 p (List.mem_cons_of_mem x hp))]
      rw [splitCharList_no_sep (fun c hc hce => h2 x (by simp) (by rwa [hce] at hc))]
      rfl

/-! ## String-level wrappers -/

theorem string_data_ext {a b : String} (h : a.data = b.data) : a = b :=
  congrArg String.mk h

theorem string_data_append (a b : String) : (a ++ b).data = a.data ++ b.data := rfl

/-- Model of JavaScript `path.split(".")`. -/
def jsSplitDot (s : String) : List String :=
  (splitCharList '.' s.data).map (fun l => String.mk l)

/-- Join a list of segments with `"."`; the string-level inverse of
`jsSplitDot`, modelling `array.join(".")`. -/
def joinSegs : List String → String
  | [] => ""
  | [s] => s
  | s :: y :: t => s ++ "." ++ joinSegs (y :: t)

/-- Model of the template literal `prefix ? prefix + "." + key : key` used
throughout the source to extend a dot-path by one segment. -/
def joinKey (pre k : String) : String :=
  if pre = "" then k else pre ++ "." ++ k

theorem jsSplitDot_ne_nil (s : String) : jsSplitDot s ≠ [] := by
  intro h
  exact splitCharList_ne_nil '.' s.data (List.map_eq_nil_iff.mp h)

theorem jsSplitDot_map_data (s : String) :
    (jsSplitDot s).map String.data = splitCharList '.' s.data := by
  rw [jsSplitDot, List.map_map]
  have h : ∀ a ∈ splitCharList '.' s.data,
      (String.data ∘ fun l => String.mk l) a = id a := fun a _ => rfl
  rw [List.map_congr_left h, List.map_id]

theorem map_mk_data (segs : List String) :
    (segs.map String.data).map (fun l => String.mk l) = segs := by
  rw [List.map_map]
  have h : ∀ a ∈ segs, ((fun l => String.mk l) ∘ String.data) a = id a :=
    fun a _ => rfl
  rw [List.map_congr_left h, List.map_id]

theorem joinSegs_data (segs : List String) :
    (joinSegs segs).data = joinCharLists '.' (segs.map String.data) := by
  match segs with
  | [] => rfl
  | [s] => rfl
  | s :: y :: t =>
    show (s ++ "." ++ joinSegs (y :: t)).data = _
    rw [string_data_append, string_data_append, joinSegs_data (y :: t)]
    simp [joinCharLists]

theorem joinSegs_jsSplitDot (s : String) : joinSegs (jsSplitDot s) = s := by
  apply string_data_ext
  rw [joinSegs_data, jsSplitDot_map_data, joinCharLists_splitCharList]

theorem jsSplitDot_joinSegs (segs : List String) (h : segs ≠ [])
    (h2 : ∀ s ∈ segs, '.' ∉ s.data) : jsSplitDot (joinSegs segs) = segs := by
  have hsp : splitCharList '.' (joinSegs segs).data = segs.map String.data := by
    rw [joinSegs_data]
    apply splitCharList_joinCharLists
    · simpa using h
    · intro p hp
      rcases List.mem_map.mp hp with ⟨s, hs, rfl⟩
      exact h2 s hs
  rw [jsSplitDot, hsp, map_mk_data]

theorem jsSplitDot_append_dot (p q : String) :
    jsSplitDot (p ++ "." ++ q) = jsSplitDot p ++ jsSplitDot q := by
  have hd : (p ++ "." ++ q).data = p.data ++ '.' :: q.data := by
    rw [string_data_append, string_data_append,
      show (".").data = ['.'] from rfl]
    simp [List.append_assoc]
  rw [jsSplitDot, hd, splitCharList_append, List.map_append]
  rfl

theorem mem_jsSplitDot_no_dot {s p : String} (h : s ∈ jsSplitDot p) :
    '.' ∉ s.data := by
  rcases List.mem_map.mp h with ⟨l, hl, rfl⟩
  exact mem_splitCharList_not_sep hl

theorem jsSplitDot_empty : jsSplitDot "" = [""] := rfl

theorem joinSegs_cons (k : String) (segs : List String) (h : segs ≠ []) :
    joinSegs (k :: segs) = k ++ "." ++ joinSegs segs := by
  cases segs with
  | nil => exact absurd rfl h
  | cons y t => rfl

theorem string_append_ne_empty_of_left (a b : String) (h : a.data ≠ []) :
    a ++ b ≠ "" := by
  intro hab
  have hd : (a ++ b).data = [] := by rw [hab]
  rw [string_data_append] at hd
  exact h (List.append_eq_nil.mp hd).1

/-- Dot-path built from a pending path and a list of further segments; used
only to state the flattening lemmas.  `joinAfter pre segs` is the key that
`flattenKeys` gives a leaf reached from the call with accumulated path
`pre` by descending through `segs`. -/
def joinAfter (pre : String) (segs : List String) : String :=
  if pre = "" then joinSegs segs else pre ++ "." ++ joinSegs segs

theorem joinAfter_of_ne (pre : String) (segs : List String) (h : pre ≠ "") :
    joinAfter pre segs = pre ++ "." ++ joinSegs segs := by
  simp [joinAfter, h]

theorem joinKey_of_ne (pre k : String) (h : pre ≠ "") :
    joinKey pre k = pre ++ "." ++ k := by
  simp [joinKey, h]

theorem joinAfter_single (pre k : String) : joinAfter pre [k] = joinKey pre k := by
  simp [joinAfter, joinKey, joinSegs]

theorem joinAfter_joinKey (pre k : String) (segs : List String)
    (hsegs : segs ≠ []) (hk : pre = "" → k ≠ "") :
    joinAfter (joinKey pre k) segs = joinAfter pre (k :: segs) := by
  by_cases hpre : pre = ""
  · rw [hpre]
    have hk' : k ≠ "" := hk hpre
    simp [joinKey, joinAfter, hk', joinSegs_cons k segs hsegs, hpre]
  · have hkey : joinKey pre k ≠ "" := by
      rw [joinKey_of_ne pre k hpre]
      exact string_append_ne_empty_of_left (pre ++ ".") k (by
        show pre.data ++ ['.'] ≠ []
        simp)
    rw [joinAfter_of_ne _ _ hkey, joinAfter_of_ne _ _ hpre,
      joinSegs_cons k segs hsegs, joinKey_of_ne pre k hpre]
    apply string_data_ext
    simp [string_data_append, List.append_assoc]

theorem jsSplitDot_joinAfter (pre : String) (segs : List String)
    (hsegs : segs ≠ []) (h2 : ∀ s ∈ segs, '.' ∉ s.data) :
    jsSplitDot (joinAfter pre segs) =
      (if pre = "" then [] else jsSplitDot pre) ++ segs := by
  by_cases hpre : pre = ""
  · simp only [joinAfter, if_pos hpre, List.nil_append]
    exact jsSplitDot_joinSegs segs hsegs h2
  · simp only [joinAfter, if_neg hpre]
    rw [jsSplitDot_append_dot, jsSplitDot_joinSegs segs hsegs h2]

theorem joinAfter_head_inj {pre a b : String} {x y : List String}
    (hv₁ : ∀ s ∈ a :: x, '.' ∉ s.data) (hv₂ : ∀ s ∈ b :: y, '.' ∉ s.data)
    (h : joinAfter pre (a :: x) = joinAfter pre (b :: y)) : a = b := by
  have h₁ := jsSplitDot_joinAfter pre (a :: x) (by simp) hv₁
  have h₂ := jsSplitDot_joinAfter pre (b :: y) (by simp) hv₂
  rw [h, h₂] at h₁
  have := List.append_cancel_left h₁.symm
  exact (List.cons.injEq a x b y ▸ this).1

/-! ## Translation trees

A parsed translation dictionary is a JSON object whose values are either
string leaves or further objects.  `Entries` models the ordered own
properties of one object (JavaScript objects preserve insertion order and
have no duplicate keys); `Tree` models a JSON value. -/

mutual
inductive Tree where
  | leaf : String → Tree
  | node : Entries → Tree
inductive Entries where
  | nil : Entries
  | cons : String → Tree → Entries → Entries
end

/-- Own-property read `obj[prop]`: the first entry with the given key, or
`undefined` (`none`). -/
def Entries.lookup : Entries → String → Option Tree
  | .nil, _ => none
  | .cons k v rest, p => if k = p then some v else rest.lookup p

/-- Own-property write `obj[prop] = value`: overwrite in place if the key
exists, otherwise append the new property at the end (JavaScript object
insertion-order semantics). -/
def Entries.setEntry : Entries → String → Tree → Entries
  | .nil, k, v => .cons k v .nil
  | .cons k' v' rest, k, v =>
    if k' = k then .cons k' v rest else .cons k' v' (rest.setEntry k v)

/-- Keys of one object level, in order. -/
def Entries.keys : Entries → List String
  | .nil => []
  | .cons k _ rest => k :: rest.keys

/-- One step of getNestedProperty's loop (translationUtils.js 336-348):
`undefined`/`null` propagates, property access on a string leaf yields
`undefined`, property access on an object is own-property lookup. -/
def getStep : Option Tree → String → Option Tree
  | none, _ => none
  | some (.leaf _), _ => none
  | some (.node es), p => es.lookup p

/-- Descend from an optional value through a list of segments. -/
def getSegsO (o : Option Tree) (segs : List String) : Option Tree :=
  segs.foldl getStep o

/-- Model of getNestedProperty (translationUtils.js 336-348, duplicated in
extension.js 379-391): split the path on `"."` and walk the object one
segment at a time. -/
def getNestedProperty (obj : Entries) (path : String) : Option Tree :=
  getSegsO (some (.node obj)) (jsSplitDot path)

/-- Recursive core of setNestedProperty on the already-split path: for every
segment except the last, walk into the existing sub-object, replacing a
missing or non-object value by a fresh empty object; assign at the last
segment. -/
def setSegs : Entries → List String → Tree → Entries
  | es, [], _ => es
  | es, [last], v => es.setEntry last v
  | es, p :: rest, v =>
    let sub : Entries :=
      match es.lookup p with
      | some (.node se) => se
      | _ => .nil
    es.setEntry p (.node (setSegs sub rest v))

/-- Model of setNestedProperty (translationUtils.js 356-371).  The
JavaScript function mutates `obj` in place; the model returns the final
state of the object. -/
def setNestedProperty (obj : Entries) (path : String) (value : Tree) : Entries :=
  setSegs obj (jsSplitDot path) value

theorem lookup_setEntry : ∀ (es : Entries) (k : String) (v : Tree),
    (es.setEntry k v).lookup k = some v
  | .nil, k, v => by simp [Entries.setEntry, Entries.lookup]
  | .cons k' v' rest, k, v => by
    by_cases hk : k' = k
    · simp [Entries.setEntry, Entries.lookup, hk]
    · simp [Entries.setEntry, Entries.lookup, hk, lookup_setEntry rest k v]

theorem getSegsO_cons_node (es : Entries) (k : String) (segs : List String) :
    getSegsO (some (.node es)) (k :: segs) = getSegsO (es.lookup k) segs := rfl

theorem getSegs_setSegs (es : Entries) (segs : List String) (v : Tree)
    (h : segs ≠ []) : getSegsO (some (.node (setSegs es segs v))) segs = some v := by
  induction segs generalizing es with
  | nil => exact absurd rfl h
  | cons p rest ih =>
    cases rest with
    | nil =>
      rw [getSegsO_cons_node]
      show getSegsO ((es.setEntry p v).lookup p) [] = some v
      rw [lookup_setEntry]
      rfl
    | cons q t =>
      rw [getSegsO_cons_node]
      show getSegsO ((setSegs es (p :: q :: t) v).lookup p) (q :: t) = some v
      simp only [setSegs]
      rw [lookup_setEntry]
      exact ih _ (by simp)

/-- Claim C1 (round-trip): for every translation object, every dot-path and
every value, setNestedProperty followed by getNestedProperty on the mutated
object returns exactly the written value; this covers paths whose
intermediate positions hold string leaves, which setNestedProperty
overwrites with a fresh empty object. -/
theorem set_get_roundtrip (obj : Entries) (path : String) (value : Tree) :
    getNestedProperty (setNestedProperty obj path value) path = some value := by
  rw [getNestedProperty, setNestedProperty]
  exact getSegs_setSegs obj (jsSplitDot path) value (jsSplitDot_ne_nil path)

theorem getSegsO_none (segs : List String) : getSegsO none segs = none := by
  induction segs with
  | nil => rfl
  | cons k t ih => exact ih

theorem getSegsO_append (o : Option Tree) (a b : List String) :
    getSegsO o (a ++ b) = getSegsO (getSegsO o a) b := by
  simp [getSegsO, List.foldl_append]

theorem getSegsO_leaf_cons (s : String) (k : String) (segs : List String) :
    getSegsO (some (.leaf s)) (k :: segs) = none :=
  getSegsO_none segs

/-- Claim C3: getNestedProperty returns `undefined` as soon as a path
segment is missing or an intermediate value reached along the path is a
string leaf rather than an object; extending such a path by further
segments can never produce a value.  The function is total (modelled as an
`Option`-valued function), so it never raises an error. -/
theorem getNestedProperty_stops (obj : Entries) (p q : String)
    (h : getNestedProperty obj p = none ∨
      ∃ s, getNestedProperty obj p = some (.leaf s)) :
    getNestedProperty obj (p ++ "." ++ q) = none := by
  rw [getNestedProperty, jsSplitDot_append_dot, getSegsO_append]
  rcases h with h | ⟨s, h⟩
  · rw [getNestedProperty] at h
    rw [h]
    exact getSegsO_none _
  · rw [getNestedProperty] at h
    rw [h]
    cases hq : jsSplitDot q with
    | nil => exact absurd hq (jsSplitDot_ne_nil q)
    | cons k t => exact getSegsO_leaf_cons s k t

/-- Sample dictionary `a.b = "x"`, `c = "y"` used by several witnesses. -/
def sampleTree : Entries :=
  .cons "a" (.node (.cons "b" (.leaf "x") .nil)) (.cons "c" (.leaf "y") .nil)

theorem getNestedProperty_stops_witness :
    getNestedProperty sampleTree "a.b.z" = none :=
  getNestedProperty_stops sampleTree "a.b" "z" (Or.inr ⟨"x", rfl⟩)

/-! ## Key flattening (flattenKeys, translationUtils.js 418-432) -/

mutual
/-- Contribution of one JSON value to the flattened key list: the body of
the `for` loop in flattenKeys — recurse on objects, emit a `(key, value)`
pair on leaves. -/
def Tree.flatten : Tree → String → List (String × String)
  | .leaf s, key => [(key, s)]
  | .node es, key => Entries.flattenKeys es key
/-- Model of flattenKeys: walk the entries in order, extending the
accumulated dot-path with `joinKey`. -/
def Entries.flattenKeys : Entries → String → List (String × String)
  | .nil, _ => []
  | .cons k v rest, pre =>
    Tree.flatten v (joinKey pre k) ++ Entries.flattenKeys rest pre
end

/-! ## Well-formed translation trees

The spec's data-model invariants for a TranslationTree: keys within one
level are unique (JSON objects cannot repeat a key), and every key is a
usable dot-path segment — non-empty and without an embedded `"."`. -/

mutual
def Tree.wfB : Tree → Bool
  | .leaf _ => true
  | .node es => es.wfB
def Entries.wfB : Entries → Bool
  | .nil => true
  | .cons k v rest =>
    !decide (k = "") && !decide ('.' ∈ k.data) && !decide (k ∈ rest.keys) &&
      v.wfB && rest.wfB
end

theorem wfB_cons {k : String} {v : Tree} {rest : Entries}
    (h : (Entries.cons k v rest).wfB = true) :
    k ≠ "" ∧ '.' ∉ k.data ∧ k ∉ rest.keys ∧ v.wfB = true ∧ rest.wfB = true := by
  simp only [Entries.wfB, Bool.and_eq_true, Bool.not_eq_true',
    decide_eq_false_iff_not] at h
  exact ⟨h.1.1.1.1, h.1.1.1.2, h.1.1.2, h.1.2, h.2⟩

theorem lookup_mem_keys : ∀ (es : Entries) (k : String) (t : Tree),
    es.lookup k = some t → k ∈ es.keys
  | .nil, k, t => by simp [Entries.lookup]
  | .cons k' v rest, k, t => by
    intro h
    simp only [Entries.lookup] at h
    by_cases hk : k' = k
    · simp [Entries.keys, hk]
    · rw [if_neg hk] at h
      exact List.mem_cons_of_mem k' (lookup_mem_keys rest k t h)

theorem lookup_not_mem_keys {es : Entries} {k : String} (h : k ∉ es.keys) :
    es.lookup k = none := by
  cases hl : es.lookup k with
  | none => rfl
  | some t => exact absurd (lookup_mem_keys es k t hl) h

/-- Soundness of flattening: every emitted pair corresponds to a descent
through a non-empty list of valid segments ending at the emitted leaf. -/
theorem flatten_sound : ∀ (es : Entries) (pre p v : String),
    es.wfB = true → (p, v) ∈ Entries.flattenKeys es pre →
    ∃ segs : List String, segs ≠ [] ∧ (∀ s ∈ segs, s ≠ "" ∧ '.' ∉ s.data) ∧
      p = joinAfter pre segs ∧ getSegsO (some (.node es)) segs = some (.leaf v)
  | .nil, pre, p, v => by
    intro _ h
    simp [Entries.flattenKeys] at h
  | .cons k t rest, pre, p, v => by
    intro hwf hmem
    obtain ⟨hk1, hk2, hk3, hwt, hwr⟩ := wfB_cons hwf
    rw [Entries.flattenKeys] at hmem
    rcases List.mem_append.mp hmem with hm | hm
    · cases t with
      | leaf s =>
        simp only [Tree.flatten, List.mem_singleton, Prod.mk.injEq] at hm
        refine ⟨[k], by simp, by simp [hk1, hk2], ?_, ?_⟩
        · rw [joinAfter_single, hm.1]
        · rw [getSegsO_cons_node]
          simp [Entries.lookup, getSegsO, hm.2]
      | node es' =>
        simp only [Tree.flatten] at hm
        obtain ⟨segs', hne, hval, hp, hget⟩ :=
          flatten_sound es' (joinKey pre k) p v hwt hm
        refine ⟨k :: segs', by simp, ?_, ?_, ?_⟩
        · intro s hs
          rcases List.mem_cons.mp hs with rfl | hs'
          · exact ⟨hk1, hk2⟩
          · exact hval s hs'
        · rw [hp, joinAfter_joinKey pre k segs' hne (fun _ => hk1)]
        · rw [getSegsO_cons_node]
          simp only [Entries.lookup, if_pos rfl]
          exact hget
    · obtain ⟨segs, hne, hval, hp, hget⟩ := flatten_sound rest pre p v hwr hm
      refine ⟨segs, hne, hval, hp, ?_⟩
      cases segs with
      | nil => exact absurd rfl hne
      | cons k₁ t₁ =>
        rw [getSegsO_cons_node] at hget ⊢
        have hk₁ : rest.lookup k₁ ≠ none := by
          intro hnone
          rw [hnone, getSegsO_none] at hget
          exact Option.noConfusion hget
        have hkk : k ≠ k₁ := by
          intro hkk
          rcases hl : rest.lookup k₁ with _ | t'
          · exact hk₁ hl
          · exact hk3 (hkk ▸ lookup_mem_keys rest k₁ t' hl)
        simp only [Entries.lookup, if_neg hkk]
        exact hget
termination_by es _ _ _ => sizeOf es

/-- Completeness of flattening: every leaf reachable by a descent through
segments is emitted with the corresponding joined key. -/
theorem flatten_complete : ∀ (es : Entries) (pre : String) (segs : List String)
    (v : String), es.wfB = true →
    getSegsO (some (.node es)) segs = some (.leaf v) →
    (joinAfter pre segs, v) ∈ Entries.flattenKeys es pre
  | .nil, pre, segs, v => by
    intro _ hget
    cases segs with
    | nil => simp [getSegsO] at hget
    | cons k t =>
      rw [getSegsO_cons_node] at hget
      simp only [Entries.lookup] at hget
      rw [getSegsO_none] at hget
      exact Option.noConfusion hget
  | .cons k₀ t₀ rest, pre, segs, v => by
    intro hwf hget
    obtain ⟨hk1, hk2, hk3, hwt, hwr⟩ := wfB_cons hwf
    cases segs with
    | nil => simp [getSegsO] at hget
    | cons k₁ t₁ =>
      rw [getSegsO_cons_node] at hget
      by_cases hk : k₀ = k₁
      · simp only [Entries.lookup, if_pos hk] at hget
        cases t₁ with
        | nil =>
          simp only [getSegsO, List.foldl_nil, Option.some.injEq] at hget
          rw [Entries.flattenKeys]
          apply List.mem_append_left
          rw [joinAfter_single, ← hk, hget]
          simp [Tree.flatten]
        | cons t₁h t₁t =>
          cases t₀ with
          | leaf s =>
            rw [getSegsO_leaf_cons] at hget
            exact Option.noConfusion hget
          | node es' =>
            have hmem := flatten_complete es' (joinKey pre k₀) (t₁h :: t₁t) v hwt hget
            rw [joinAfter_joinKey pre k₀ (t₁h :: t₁t) (by simp) (fun _ => hk1)] at hmem
            rw [Entries.flattenKeys, ← hk]
            exact List.mem_append_left _ hmem
      · simp only [Entries.lookup, if_neg hk] at hget
        have hmem := flatten_complete rest pre (k₁ :: t₁) v hwr
          (by rw [getSegsO_cons_node]; exact hget)
        rw [Entries.flattenKeys]
        exact List.mem_append_right _ hmem
termination_by es _ _ _ => sizeOf es

theorem getSegsO_head_mem_keys {es : Entries} {k : String} {segs : List String}
    {v : String} (h : getSegsO (some (.node es)) (k :: segs) = some (.leaf v)) :
    k ∈ es.keys := by
  rw [getSegsO_cons_node] at h
  cases hl : es.lookup k with
  | none =>
    rw [hl, getSegsO_none] at h
    exact Option.noConfusion h
  | some t => exact lookup_mem_keys es k t hl

/-- Every key emitted by flattening an entry block under accumulated path
`pre` decomposes as `joinAfter pre (k :: z)` where `k` is the entry's key
and all segments are valid. -/
theorem flatten_block_key {k : String} {t : Tree}
    {pre p : String} (hk1 : k ≠ "") (hk2 : '.' ∉ k.data)
    (hwt : t.wfB = true)
    (hp : p ∈ (Tree.flatten t (joinKey pre k)).map Prod.fst) :
    ∃ z : List String, (∀ s ∈ k :: z, s ≠ "" ∧ '.' ∉ s.data) ∧
      p = joinAfter pre (k :: z) := by
  obtain ⟨⟨p₁, v₁⟩, hm₁, hfst₁⟩ := List.mem_map.mp hp
  cases t with
  | leaf s =>
    simp only [Tree.flatten, List.mem_singleton, Prod.mk.injEq] at hm₁
    refine ⟨[], by simp [hk1, hk2], ?_⟩
    rw [← hfst₁, hm₁.1, joinAfter_single]
  | node es' =>
    simp only [Tree.flatten] at hm₁
    obtain ⟨segs', hne, hval, hp', _⟩ :=
      flatten_sound es' (joinKey pre k) p₁ v₁ hwt hm₁
    refine ⟨segs', ?_, ?_⟩
    · intro s hs
      rcases List.mem_cons.mp hs with rfl | hs'
      · exact ⟨hk1, hk2⟩
      · exact hval s hs'
    · rw [← hfst₁, hp', joinAfter_joinKey pre k segs' hne (fun _ => hk1)]

/-- No dot-path occurs twice among the keys emitted by flattenKeys, for a
well-formed tree. -/
theorem flatten_keys_nodup : ∀ (es : Entries) (pre : String),
    es.wfB = true → ((Entries.flattenKeys es pre).map Prod.fst).Nodup
  | .nil, _ => by
    intro _
    simp [Entries.flattenKeys]
  | .cons k t rest, pre => by
    intro hwf
    obtain ⟨hk1, hk2, hk3, hwt, hwr⟩ := wfB_cons hwf
    rw [Entries.flattenKeys, List.map_append]
    apply List.Nodup.append
    · cases t with
      | leaf s => simp [Tree.flatten]
      | node es' => exact flatten_keys_nodup es' (joinKey pre k) hwt
    · exact flatten_keys_nodup rest pre hwr
    · intro p hp₁ hp₂
      obtain ⟨z, hvz, hpz⟩ := flatten_block_key hk1 hk2 hwt hp₁
      obtain ⟨⟨p₂, v₂⟩, hm₂, hfst₂⟩ := List.mem_map.mp hp₂
      obtain ⟨segs₂, hne₂, hval₂, hp₂', hget₂⟩ :=
        flatten_sound rest pre p₂ v₂ hwr hm₂
      cases segs₂ with
      | nil => exact absurd rfl hne₂
      | cons k₂ t₂ =>
        have hk₂mem : k₂ ∈ rest.keys := getSegsO_head_mem_keys hget₂
        have heq : joinAfter pre (k :: z) = joinAfter pre (k₂ :: t₂) := by
          rw [← hpz, ← hfst₂, hp₂']
        have : k = k₂ :=
          joinAfter_head_inj (fun s hs => (hvz s hs).2)
            (fun s hs => (hval₂ s hs).2) heq
        exact hk3 (this ▸ hk₂mem)
termination_by es _ => sizeOf es

/-- Claim C2: for a well-formed translation tree, flattenKeys emits exactly
one entry per leaf — an emitted pair `(p, v)` occurs iff getNestedProperty
at `p` yields the leaf `v`, and no dot-path key occurs twice in the
output. -/
theorem flattenKeys_exact (es : Entries) (hwf : es.wfB = true) :
    ((Entries.flattenKeys es "").map Prod.fst).Nodup ∧
      ∀ p v, ((p, v) ∈ Entries.flattenKeys es "" ↔
        getNestedProperty es p = some (.leaf v)) := by
  refine ⟨flatten_keys_nodup es "" hwf, fun p v => ⟨?_, ?_⟩⟩
  · intro hmem
    obtain ⟨segs, hne, hval, hp, hget⟩ := flatten_sound es "" p v hwf hmem
    rw [getNestedProperty, hp, jsSplitDot_joinAfter "" segs hne
      (fun s hs => (hval s hs).2)]
    simpa using hget
  · intro hget
    have hmem := flatten_complete es "" (jsSplitDot p) v hwf hget
    have hj : joinAfter "" (jsSplitDot p) = p := by
      simp only [joinAfter, if_pos rfl]
      exact joinSegs_jsSplitDot p
    rwa [hj] at hmem

theorem flattenKeys_exact_witness :
    Entries.wfB sampleTree = true ∧
      (("a.b", "x") ∈ Entries.flattenKeys sampleTree "") :=
  ⟨by decide, ((flattenKeys_exact sampleTree (by decide)).2 "a.b" "x").mpr rfl⟩

/-! ## Adding keys (addKeyToTranslationFile, commandHandlers.js 301-319) -/

/-- Model of addKeyToTranslationFile after the target file has been read and
parsed: if getNestedProperty finds any defined value at the key, the parsed
content is returned unchanged with `modified = false`; otherwise the key is
set to the given value and `modified = true` is reported. -/
def addKeyToTranslationFile (content : Entries) (key value : String) :
    Entries × Bool :=
  match getNestedProperty content key with
  | some _ => (content, false)
  | none => (setNestedProperty content key (.leaf value), true)

/-- Claim C6: when the key already resolves to a defined leaf value,
addKeyToTranslationFile reports not-modified and leaves the content
unchanged — it never overwrites the existing value. -/
theorem addKey_existing_leaf_not_modified (content : Entries)
    (key value s : String) (h : getNestedProperty content key = some (.leaf s)) :
    addKeyToTranslationFile content key value = (content, false) := by
  rw [addKeyToTranslationFile, h]

theorem addKey_existing_leaf_not_modified_witness :
    addKeyToTranslationFile sampleTree "a.b" "other" = (sampleTree, false) :=
  addKey_existing_leaf_not_modified sampleTree "a.b" "other" "x" rfl

/-- Claim C10: when the key resolves to an existing intermediate sub-object
(a node rather than a defined leaf), addKeyToTranslationFile also reports
not-modified and leaves the content unchanged; any defined occupant of the
path blocks the add. -/
theorem addKey_existing_node_not_modified (content : Entries)
    (key value : String) (es : Entries)
    (h : getNestedProperty content key = some (.node es)) :
    addKeyToTranslationFile content key value = (content, false) := by
  rw [addKeyToTranslationFile, h]

theorem addKey_existing_node_not_modified_witness :
    addKeyToTranslationFile sampleTree "a" "other" = (sampleTree, false) :=
  addKey_existing_node_not_modified sampleTree "a" "other"
    (.cons "b" (.leaf "x") .nil) rfl

/-! ## Text existence lookup (textExistsInTranslations, textHighlighter.js
273-306) -/

/-- Model of JavaScript `String.prototype.trim`: drop whitespace from both
ends. -/
def jsTrim (s : String) : String :=
  ⟨((s.data.dropWhile (fun c => isSpaceChar c)).reverse.dropWhile
      (fun c => isSpaceChar c)).reverse⟩

mutual
/-- Branch of searchForValue's loop body on one JSON value: a string leaf
is compared (after trimming both sides) with the searched text, an object
is searched recursively. -/
def Tree.searchForValue : Tree → String → String → List String
  | .leaf s, text, currentPath =>
    if jsTrim s = jsTrim text then [currentPath] else []
  | .node es, text, currentPath => Entries.searchForValue es text currentPath
/-- Model of the recursive closure searchForValue inside
textExistsInTranslations: walk all entries, accumulating dot-paths, and
collect every path whose leaf equals the text after trimming. -/
def Entries.searchForValue : Entries → String → String → List String
  | .nil, _, _ => []
  | .cons k v rest, text, pathAcc =>
    Tree.searchForValue v text (joinKey pathAcc k) ++
      Entries.searchForValue rest text pathAcc
end

theorem searchForValue_eq_filter : ∀ (es : Entries) (text pathAcc : String),
    Entries.searchForValue es text pathAcc =
      ((Entries.flattenKeys es pathAcc).filter
        (fun e => jsTrim e.2 == jsTrim text)).map Prod.fst
  | .nil, _, _ => rfl
  | .cons k v rest, text, pathAcc => by
    rw [Entries.searchForValue, Entries.flattenKeys, List.filter_append,
      List.map_append]
    congr 1
    · cases v with
      | leaf s =>
        by_cases h : jsTrim s = jsTrim text
        · simp [Tree.searchForValue, Tree.flatten, h]
        · simp [Tree.searchForValue, Tree.flatten, h]
      | node es' => exact searchForValue_eq_filter es' text (joinKey pathAcc k)
    · exact searchForValue_eq_filter rest text pathAcc
termination_by es _ _ => sizeOf es

/-- Reference language selection (textHighlighter.js 279-281): the tree for
language code "en" when present, else the first language's tree.  `none`
models the `undefined` reference obtained from an empty translations
object, in which case the JavaScript code throws inside its try block and
the catch clause yields the empty result. -/
def referenceTree (translations : List (String × Entries)) : Option Entries :=
  if (translations.map Prod.fst).contains "en" then
    List.lookup "en" translations
  else translations.head?.map Prod.snd

/-- Model of textExistsInTranslations: search the reference-language tree
for every dot-path whose leaf equals the text after trimming; the flag is
`matchingKeys.length > 0`. -/
def textExistsInTranslations (translations : List (String × Entries))
    (text : String) : Bool × List String :=
  match referenceTree translations with
  | none => (false, [])
  | some r =>
    let matchingKeys := Entries.searchForValue r text ""
    (decide (0 < matchingKeys.length), matchingKeys)

/-- Claim C7: for a well-formed reference tree (language "en" when present,
else the first language), textExistsInTranslations returns exactly the
dot-paths whose leaf value equals the text after trimming both sides, and
its flag is set iff that collection is non-empty. -/
theorem textExistsInTranslations_spec
    (translations : List (String × Entries)) (text : String) (r : Entries)
    (href : referenceTree translations = some r) (hwf : r.wfB = true) :
    (∀ p, p ∈ (textExistsInTranslations translations text).2 ↔
      ∃ s, getNestedProperty r p = some (.leaf s) ∧ jsTrim s = jsTrim text) ∧
    ((textExistsInTranslations translations text).1 = true ↔
      (textExistsInTranslations translations text).2 ≠ []) := by
  have hdef : textExistsInTranslations translations text =
      (decide (0 < (Entries.searchForValue r text "").length),
        Entries.searchForValue r text "") := by
    rw [textExistsInTranslations, href]
  constructor
  · intro p
    rw [hdef]
    simp only
    rw [searchForValue_eq_filter]
    constructor
    · intro hp
      obtain ⟨⟨p', v⟩, hm, hfst⟩ := List.mem_map.mp hp
      obtain ⟨hmem, hbeq⟩ := List.mem_filter.mp hm
      refine ⟨v, ?_, ?_⟩
      · have hpv := ((flattenKeys_exact r hwf).2 p' v).mp hmem
        have hp' : p' = p := hfst
        rwa [hp'] at hpv
      · exact eq_of_beq hbeq
    · rintro ⟨s, hget, htrim⟩
      apply List.mem_map.mpr
      refine ⟨(p, s), ?_, rfl⟩
      apply List.mem_filter.mpr
      exact ⟨((flattenKeys_exact r hwf).2 p s).mpr hget, by simp [htrim]⟩
  · rw [hdef]
    simp only [decide_eq_true_eq]
    rw [List.length_pos]

/-- Reference dictionary used by the C7 witness, mirroring the spec's
worked example. -/
def enTree : Entries :=
  .cons "timeEntry"
    (.node (.cons "noEntries" (.leaf "No time entries found") .nil)) .nil

def sampleTranslations : List (String × Entries) := [("en", enTree)]

theorem textExistsInTranslations_spec_witness :
    "timeEntry.noEntries" ∈
      (textExistsInTranslations sampleTranslations "No time entries found").2 :=
  ((textExistsInTranslations_spec sampleTranslations "No time entries found"
      enTree rfl (by decide)).1 "timeEntry.noEntries").mpr
    ⟨"No time entries found", rfl, rfl⟩

/-! ## Dictionary loading (findTranslationFiles, translationUtils.js
264-328)

The surrounding file system is a parameter of the model: `conv` lists the
files that exist at the conventional locations, in probe order, and `glob`
lists the JSON files enumerated by the fallback workspace scan.  Each file
carries the language code derived from its name, its path, and its parse
result (`none` models malformed JSON).  The no-workspace guard at the top
of the function concerns the caller's environment and is outside the
model. -/

structure ScanFile where
  lang : String
  path : String
  json : Option Entries

/-- Model of hasNestedStructure (translationUtils.js 388-392): some
top-level value is itself an object. -/
def hasNestedStructure : Entries → Bool
  | .nil => false
  | .cons _ (.node _) _ => true
  | .cons _ (.leaf _) rest => hasNestedStructure rest

/-- Fixed vocabulary checked by hasCommonTranslationKeys
(translationUtils.js 399-410). -/
def commonTranslationKeys : List String :=
  ["common", "general", "buttons", "forms", "navigation", "errors", "timeEntry"]

/-- Model of hasCommonTranslationKeys: some top-level key belongs to the
common vocabulary. -/
def hasCommonTranslationKeys (es : Entries) : Bool :=
  es.keys.any (fun k => commonTranslationKeys.contains k)

/-- JavaScript object assignment `m[k] = v` for the language-indexed result
maps: overwrite in place when present, append otherwise. -/
def assocSet {α : Type} : List (String × α) → String → α → List (String × α)
  | [], k, v => [(k, v)]
  | (k', v') :: rest, k, v =>
    if k' = k then (k', v) :: rest else (k', v') :: assocSet rest k v

/-- Conventional-location pass: every existing file is read and parsed
(`JSON.parse` is not wrapped in try/catch here, so a malformed file throws
out of the whole function). -/
def convPass : List ScanFile →
    List (String × Entries) × List (String × String) →
    Except String (List (String × Entries) × List (String × String))
  | [], acc => .ok acc
  | f :: rest, acc =>
    match f.json with
    | none => .error "JSON.parse"
    | some root =>
      convPass rest (assocSet acc.1 f.lang root, assocSet acc.2 f.lang f.path)

/-- Fallback workspace scan: a file contributes only when it parses and
passes both structural heuristics; malformed files are skipped silently by
the per-file try/catch. -/
def globPass : List ScanFile →
    List (String × Entries) × List (String × String) →
    List (String × Entries) × List (String × String)
  | [], acc => acc
  | f :: rest, acc =>
    match f.json with
    | some root =>
      if hasNestedStructure root && hasCommonTranslationKeys root then
        globPass rest (assocSet acc.1 f.lang root, assocSet acc.2 f.lang f.path)
      else globPass rest acc
    | none => globPass rest acc

/-- Model of findTranslationFiles: when no conventional file exists, run the
fallback scan; in every case the function returns the accumulated
translation and file-path maps — the `translationFilesFound` flag only
gates the fallback scan and is never turned into an error. -/
def findTranslationFiles (conv glob : List ScanFile) :
    Except String (List (String × Entries) × List (String × String)) :=
  match conv with
  | [] => .ok (globPass glob ([], []))
  | _ :: _ => convPass conv ([], [])

/-- Claim C5 counterexample: with files present but zero qualifying after
both passes (here: no conventional file, one malformed fallback file and
one parseable fallback file failing the heuristics), findTranslationFiles
does not fail with any error — it returns successfully with both maps
empty. -/
theorem findTranslationFiles_counterexample :
    findTranslationFiles []
      [⟨"notes", "notes.json", none⟩,
       ⟨"pkg", "package.json", some (.cons "name" (.leaf "app") .nil)⟩] =
      .ok ([], []) := rfl

theorem assocSet_ne_nil {α : Type} (m : List (String × α)) (k : String) (v : α) :
    assocSet m k v ≠ [] := by
  cases m with
  | nil => simp [assocSet]
  | cons p rest =>
    rw [assocSet]
    split <;> simp

theorem globPass_no_qualify (glob : List ScanFile)
    (acc : List (String × Entries) × List (String × String))
    (h : ∀ f ∈ glob, ∀ root, f.json = some root →
      (hasNestedStructure root && hasCommonTranslationKeys root) = false) :
    globPass glob acc = acc := by
  induction glob generalizing acc with
  | nil => rfl
  | cons f rest ih =>
    cases hj : f.json with
    | none =>
      simp only [globPass, hj]
      exact ih acc (fun g hg => h g (List.mem_cons_of_mem f hg))
    | some root =>
      simp only [globPass, hj, h f (List.mem_cons_self f rest) root hj,
        Bool.false_eq_true, if_false]
      exact ih acc (fun g hg => h g (List.mem_cons_of_mem f hg))

theorem globPass_fst_ne_nil (glob : List ScanFile)
    (acc : List (String × Entries) × List (String × String))
    (h : acc.1 ≠ []) : (globPass glob acc).1 ≠ [] := by
  induction glob generalizing acc with
  | nil => exact h
  | cons f rest ih =>
    cases hj : f.json with
    | none =>
      simp only [globPass, hj]
      exact ih acc h
    | some root =>
      simp only [globPass, hj]
      split
      · exact ih (assocSet acc.1 f.lang root, assocSet acc.2 f.lang f.path)
          (assocSet_ne_nil _ _ _)
      · exact ih acc h

theorem globPass_qualify_ne_nil (glob : List ScanFile)
    (acc : List (String × Entries) × List (String × String))
    (h : ∃ f ∈ glob, ∃ root, f.json = some root ∧
      (hasNestedStructure root && hasCommonTranslationKeys root) = true) :
    (globPass glob acc).1 ≠ [] := by
  induction glob generalizing acc with
  | nil =>
    obtain ⟨f, hf, _⟩ := h
    exact absurd hf (List.not_mem_nil f)
  | cons f rest ih =>
    obtain ⟨g, hg, root, hroot, hqual⟩ := h
    rcases List.mem_cons.mp hg with rfl | hg'
    · simp only [globPass, hroot, hqual, if_true]
      exact globPass_fst_ne_nil rest
        (assocSet acc.1 g.lang root, assocSet acc.2 g.lang g.path)
        (assocSet_ne_nil _ _ _)
    · cases hj : f.json with
      | none =>
        simp only [globPass, hj]
        exact ih acc ⟨g, hg', root, hroot, hqual⟩
      | some root' =>
        simp only [globPass, hj]
        split
        · exact globPass_fst_ne_nil rest
            (assocSet acc.1 f.lang root', assocSet acc.2 f.lang f.path)
            (assocSet_ne_nil _ _ _)
        · exact ih acc ⟨g, hg', root, hroot, hqual⟩

theorem convPass_ok (conv : List ScanFile)
    (acc : List (String × Entries) × List (String × String))
    (h : ∀ f ∈ conv, f.json.isSome) :
    ∃ ts ps, convPass conv acc = .ok (ts, ps) ∧
      ((acc.1 ≠ [] ∨ conv ≠ []) → ts ≠ []) := by
  induction conv generalizing acc with
  | nil =>
    refine ⟨acc.1, acc.2, rfl, ?_⟩
    rintro (hne | hne)
    · exact hne
    · exact absurd rfl hne
  | cons f rest ih =>
    have hf : f.json.isSome := h f (List.mem_cons_self f rest)
    cases hj : f.json with
    | none => rw [hj] at hf; exact absurd hf (by simp)
    | some root =>
      rw [convPass, hj]
      obtain ⟨ts, ps, hok, hne⟩ :=
        ih (assocSet acc.1 f.lang root, assocSet acc.2 f.lang f.path)
          (fun g hg => h g (List.mem_cons_of_mem f hg))
      exact ⟨ts, ps, hok, fun _ => hne (Or.inl (assocSet_ne_nil _ _ _))⟩

/-- Claim C5 amended: findTranslationFiles itself never signals a
no-dictionaries error.  When zero files qualify after both passes it
returns successfully with both maps empty (callers detect the condition
from emptiness); whenever at least one file qualifies — a fallback file
passing both heuristics, or any existing conventional file when all
conventional files parse — it returns the populated maps. -/
theorem findTranslationFiles_result (conv glob : List ScanFile) :
    (conv = [] → (∀ f ∈ glob, ∀ root, f.json = some root →
        (hasNestedStructure root && hasCommonTranslationKeys root) = false) →
      findTranslationFiles conv glob = .ok ([], [])) ∧
    (conv = [] → (∃ f ∈ glob, ∃ root, f.json = some root ∧
        (hasNestedStructure root && hasCommonTranslationKeys root) = true) →
      ∃ ts ps, findTranslationFiles conv glob = .ok (ts, ps) ∧ ts ≠ []) ∧
    (conv ≠ [] → (∀ f ∈ conv, f.json.isSome) →
      ∃ ts ps, findTranslationFiles conv glob = .ok (ts, ps) ∧ ts ≠ []) := by
  refine ⟨?_, ?_, ?_⟩
  · intro hconv hno
    rw [hconv, findTranslationFiles, globPass_no_qualify glob ([], []) hno]
  · intro hconv hyes
    rw [hconv, findTranslationFiles]
    obtain ⟨ts, ps, hres⟩ :
        ∃ ts ps, globPass glob ([], []) = (ts, ps) :=
      ⟨_, _, rfl⟩
    refine ⟨ts, ps, by rw [hres], ?_⟩
    have := globPass_qualify_ne_nil glob ([], []) hyes
    rwa [hres] at this
  · intro hconv hparse
    cases hc : conv with
    | nil => exact absurd hc hconv
    | cons f rest =>
      rw [findTranslationFiles]
      obtain ⟨ts, ps, hok, hne⟩ := convPass_ok (f :: rest) ([], [])
        (by rw [← hc]; exact hparse)
      exact ⟨ts, ps, hok, hne (Or.inr (by simp))⟩

/-- Dictionary root that passes both fallback heuristics, used by the C5
witness. -/
def qualifyingRoot : Entries :=
  .cons "common" (.node (.cons "save" (.leaf "Save") .nil)) .nil

theorem findTranslationFiles_result_witness :
    ∃ ts ps, findTranslationFiles []
        [⟨"en", "messages/en.json", some qualifyingRoot⟩] = .ok (ts, ps) ∧
      ts ≠ [] :=
  (findTranslationFiles_result [] [⟨"en", "messages/en.json",
      some qualifyingRoot⟩]).2.1 rfl
    ⟨⟨"en", "messages/en.json", some qualifyingRoot⟩, by simp,
      qualifyingRoot, rfl, by decide⟩

/-! ## Completion engine (provideCompletionItems, completionProvider.js)

The pure core of the completion provider: given the partial key typed
inside `t("...")` and the flattened key list of the reference language, it
produces labelled candidates.  Editor concerns (cursor ranges, snippet
insert-texts, documentation markdown, re-trigger commands) are outside the
model; the candidate label and its category/leaf/exact-match kind are
kept. -/

structure FlatEntry where
  key : String
  value : String
deriving DecidableEq

/-- Candidate kinds: `module` is vscode.CompletionItemKind.Module (a
"Translation Category"), `property` is CompletionItemKind.Property (a
"Translation Key" leaf), `value` is CompletionItemKind.Value (an exact
match). -/
inductive CompletionKind where
  | module
  | property
  | value
deriving DecidableEq

structure CompletionItem where
  label : String
  kind : CompletionKind
deriving DecidableEq

/-- Model of JavaScript `str.startsWith(piece)`. -/
def jsStartsWith (s piece : String) : Bool :=
  piece.data.isPrefixOf s.data

/-- Model of `partialKey.replace(/\.$/, "")`: the regex is anchored, so at
most one trailing dot is removed. -/
def stripTrailingDot (s : String) : String :=
  match s.data.getLast? with
  | some c => if c = '.' then ⟨s.data.dropLast⟩ else s
  | none => s

/-- JavaScript `Set` insertion: sets preserve insertion order and ignore
duplicates. -/
def insertUnique (l : List String) (s : String) : List String :=
  if l.contains s then l else l ++ [s]

/-- The hasChildren check (completionProvider.js 105-108 and 174-177): some
key in the given list extends `segment` by at least one further segment. -/
def hasChildrenIn (entries : List FlatEntry) (segment : String) : Bool :=
  entries.any (fun e => jsStartsWith e.key (segment ++ ".") && e.key != segment)

/-- Body of the matchingKeys.forEach loop (completionProvider.js 64-100),
accumulating the directChildren set and the exactMatches list.  The
per-index segment comparison `currentSegments[i] !== entrySegments[i]` for
all `i < currentSegments.length` (under the guard that the entry has more
segments) is expressed as a prefix test on the split segment lists, and the
truthiness test `if (nextSegment)` as a non-emptiness test. -/
def collectStep (curSegs : List String) (norm : String)
    (acc : List String × List FlatEntry) (e : FlatEntry) :
    List String × List FlatEntry :=
  if e.key = norm then (acc.1, acc.2 ++ [e])
  else
    let esegs := jsSplitDot e.key
    if curSegs.length < esegs.length then
      if curSegs.isPrefixOf esegs then
        let next := esegs.getD curSegs.length ""
        if next = "" then acc
        else (insertUnique acc.1 (joinSegs (esegs.take (curSegs.length + 1))),
          acc.2)
      else acc
    else acc

/-- First segment of a key, `key.split(".")[0]`. -/
def firstSegment (key : String) : String := (jsSplitDot key).headD ""

/-- Model of provideCompletionItems (completionProvider.js 50-211) after the
editor has supplied the partial key and the flattened reference-language
keys.  The `else` branch of `if (partialKey)` (the empty partial) is
written first. -/
def provideCompletionItems (typedKey : String) (allKeys : List FlatEntry) :
    List CompletionItem :=
  if typedKey = "" then
    let tops := allKeys.foldl (fun acc e => insertUnique acc (firstSegment e.key)) []
    tops.map (fun seg =>
      ⟨seg, if hasChildrenIn allKeys seg then .module else .property⟩)
  else
    let norm := stripTrailingDot typedKey
    let matchingKeys := allKeys.filter (fun e =>
      jsStartsWith e.key norm &&
        (decide (norm.data.length < e.key.data.length) || norm == ""))
    let curSegs := jsSplitDot norm
    let cres := matchingKeys.foldl (collectStep curSegs norm) ([], [])
    cres.1.map (fun seg =>
      ⟨seg, if hasChildrenIn matchingKeys seg then .module else .property⟩) ++
      cres.2.map (fun e => ⟨e.key, .value⟩)

theorem mem_insertUnique {l : List String} {x s : String}
    (h : s ∈ insertUnique l x) : s ∈ l ∨ s = x := by
  rw [insertUnique] at h
  split at h
  · exact Or.inl h
  · rcases List.mem_append.mp h with h1 | h1
    · exact Or.inl h1
    · exact Or.inr (List.mem_singleton.mp h1)

/-- Characterization of the directChildren accumulated by the forEach loop:
every collected label comes from some processed entry whose split key
strictly extends the current segments and agrees with them, and is the join
of that key's first `curSegs.length + 1` segments. -/
theorem mem_collect_fst (entries : List FlatEntry) (curSegs : List String)
    (norm : String) (acc : List String × List FlatEntry) (s : String)
    (h : s ∈ (entries.foldl (collectStep curSegs norm) acc).1) :
    s ∈ acc.1 ∨ ∃ e ∈ entries,
      curSegs.length < (jsSplitDot e.key).length ∧
      curSegs.isPrefixOf (jsSplitDot e.key) = true ∧
      s = joinSegs ((jsSplitDot e.key).take (curSegs.length + 1)) := by
  induction entries generalizing acc with
  | nil => exact Or.inl h
  | cons e rest ih =>
    rw [List.foldl_cons] at h
    rcases ih (collectStep curSegs norm acc e) h with h1 | h1
    · rw [collectStep] at h1
      split at h1
      · exact Or.inl h1
      · dsimp only at h1
        split at h1
        · split at h1
          · split at h1
            · exact Or.inl h1
            · rcases mem_insertUnique h1 with h2 | h2
              · exact Or.inl h2
              · rename_i hlen hpre _
                exact Or.inr ⟨e, List.mem_cons_self e rest, hlen, hpre, h2⟩
          · exact Or.inl h1
        · exact Or.inl h1
    · obtain ⟨e', he', hrest⟩ := h1
      exact Or.inr ⟨e', List.mem_cons_of_mem e he', hrest⟩

theorem joinSegs_append (a b : List String) (ha : a ≠ []) (hb : b ≠ []) :
    joinSegs (a ++ b) = joinSegs a ++ "." ++ joinSegs b := by
  induction a with
  | nil => exact absurd rfl ha
  | cons x t iha =>
    cases t with
    | nil =>
      rw [List.singleton_append, joinSegs_cons x b hb]
      rfl
    | cons y t' =>
      rw [List.cons_append, joinSegs_cons x ((y :: t') ++ b) (by simp),
        joinSegs_cons x (y :: t') (by simp), iha (by simp)]
      apply string_data_ext
      simp [string_data_append, List.append_assoc]

/-- Claim C4: for a non-empty partial key, every segment candidate (an item
that is not an exact match) agrees with the normalized partial segment-wise
up to the partial's segment count, and extends to at least one real key of
the supplied list — the key either equals the candidate or continues it
after a dot. -/
theorem completion_prefix_consistent (typedKey : String)
    (allKeys : List FlatEntry) (item : CompletionItem)
    (hne : typedKey ≠ "") (hitem : item ∈ provideCompletionItems typedKey allKeys)
    (hkind : item.kind ≠ .value) :
    ((jsSplitDot item.label).take (jsSplitDot (stripTrailingDot typedKey)).length
        = jsSplitDot (stripTrailingDot typedKey)) ∧
    ∃ e ∈ allKeys, e.key = item.label ∨
      jsStartsWith e.key (item.label ++ ".") = true := by
  rw [provideCompletionItems, if_neg hne] at hitem
  rcases List.mem_append.mp hitem with hm | hm
  · obtain ⟨seg, hseg, hit⟩ := List.mem_map.mp hm
    have hlabel : item.label = seg := by rw [← hit]
    rcases mem_collect_fst _ _ _ ([], []) seg hseg with h0 | h0
    · exact absurd h0 (List.not_mem_nil seg)
    · obtain ⟨e, hemem, hlen, hpre, hs⟩ := h0
      have heal : e ∈ allKeys := (List.mem_filter.mp hemem).1
      set esegs := jsSplitDot e.key with hesegs
      set curSegs := jsSplitDot (stripTrailingDot typedKey) with hcur
      have htake_ne : esegs.take (curSegs.length + 1) ≠ [] := by
        intro hnil
        rcases List.take_eq_nil_iff.mp hnil with h | h
        · exact Nat.succ_ne_zero _ h
        · rw [h] at hlen
          exact Nat.not_lt_zero _ hlen
      have htake_nodot : ∀ x ∈ esegs.take (curSegs.length + 1), '.' ∉ x.data :=
        fun x hx => mem_jsSplitDot_no_dot (List.mem_of_mem_take hx)
      have hsplit_seg : jsSplitDot seg = esegs.take (curSegs.length + 1) := by
        rw [hs]
        exact jsSplitDot_joinSegs _ htake_ne htake_nodot
      constructor
      · rw [hlabel, hsplit_seg, List.take_take]
        simp only [Nat.min_def, Nat.le_succ, if_pos]
        have hpre' : curSegs <+: esegs := List.isPrefixOf_iff_prefix.mp hpre
        exact (List.prefix_iff_eq_take.mp hpre').symm
      · refine ⟨e, heal, ?_⟩
        have hkey : e.key = joinSegs esegs := (joinSegs_jsSplitDot e.key).symm
        have hdecomp : esegs = esegs.take (curSegs.length + 1) ++
            esegs.drop (curSegs.length + 1) := (List.take_append_drop _ _).symm
        cases hdrop : esegs.drop (curSegs.length + 1) with
        | nil =>
          left
          rw [hlabel, hs, hkey]
          conv_lhs => rw [hdecomp, hdrop, List.append_nil]
        | cons d ds =>
          right
          rw [hlabel, hs]
          have : e.key = joinSegs (esegs.take (curSegs.length + 1)) ++ "." ++
              joinSegs (d :: ds) := by
            rw [hkey]
            conv_lhs => rw [hdecomp, hdrop]
            exact joinSegs_append _ _ htake_ne (by simp)
          rw [jsStartsWith, this]
          apply List.isPrefixOf_iff_prefix.mpr
          refine ⟨(joinSegs (d :: ds)).data, ?_⟩
          rw [string_data_append, string_data_append, string_data_append]
  · obtain ⟨e, _, hit⟩ := List.mem_map.mp hm
    have : item.kind = .value := by rw [← hit]
    exact absurd this hkind

theorem completion_prefix_consistent_witness :
    ((jsSplitDot (CompletionItem.mk "a.b" .property).label).take
        (jsSplitDot (stripTrailingDot "a")).length
        = jsSplitDot (stripTrailingDot "a")) ∧
    ∃ e ∈ [FlatEntry.mk "a.b" "v"], e.key = (CompletionItem.mk "a.b" .property).label ∨
      jsStartsWith e.key ((CompletionItem.mk "a.b" .property).label ++ ".") = true :=
  completion_prefix_consistent "a" [⟨"a.b", "v"⟩] ⟨"a.b", .property⟩
    (by decide) (by decide) (by decide)

/-- Key list of the spec's Example 5, with arbitrary leaf values. -/
def exampleFiveKeys (v1 v2 v3 : String) : List FlatEntry :=
  [⟨"a.x", v1⟩, ⟨"a.y", v2⟩, ⟨"b.z", v3⟩]

/-- Claim C8 counterexample: for the empty partial path against the keys
a.x, a.y, b.z, the engine emits "b" tagged category (Module), not leaf
(Property) — the key "b.z" starts with "b.", so the hasChildren check holds
for the segment "b". -/
theorem completion_empty_counterexample :
    (CompletionItem.mk "b" .property) ∉
        provideCompletionItems "" (exampleFiveKeys "1" "2" "3") ∧
      (CompletionItem.mk "b" .module) ∈
        provideCompletionItems "" (exampleFiveKeys "1" "2" "3") := by
  decide

/-- Claim C8 amended: for the empty partial path against a key list with
exactly the keys a.x, a.y, b.z, the engine returns the distinct top-level
segment candidates "a" and "b", both tagged category, since each has at
least one key extending it by a further segment. -/
theorem completion_empty_top_level (v1 v2 v3 : String) :
    provideCompletionItems "" (exampleFiveKeys v1 v2 v3) =
      [⟨"a", .module⟩, ⟨"b", .module⟩] := rfl

/-! ## Key suggestion (suggestTranslationKey, textHighlighter.js 423-459) -/

/-- Model of JavaScript `toLowerCase` (ASCII case mapping on the characters
appearing in the modelled patterns). -/
def jsToLower (s : String) : String := ⟨s.data.map Char.toLower⟩

/-- Model of `replace(/[^\w\s]/g, "")`: keep only word and whitespace
characters. -/
def stripNonWordSpace (s : String) : String :=
  ⟨s.data.filter (fun c => isWordChar c || isSpaceChar c)⟩

/-- Model of `replace(/\s+/g, ".")`: each maximal whitespace run becomes a
single dot.  The flag records whether the previous character was part of a
whitespace run whose dot has already been emitted. -/
def collapseGo : Bool → List Char → List Char
  | _, [] => []
  | inRun, c :: cs =>
    if isSpaceChar c then
      if inRun then collapseGo true cs else '.' :: collapseGo true cs
    else c :: collapseGo false cs

def collapseWsToDots (s : String) : String := ⟨collapseGo false s.data⟩

/-- The text after `trim().toLowerCase().replace(/[^\w\s]/g, "")` — the
input to the whitespace-to-dot conversion. -/
def strippedOf (text : String) : String :=
  stripNonWordSpace (jsToLower (jsTrim text))

/-- The `cleanText` local of suggestTranslationKey. -/
def cleanTextOf (text : String) : String := collapseWsToDots (strippedOf text)

/-- Substring containment on character lists, the model of an unanchored
regex test for a literal pattern. -/
def containsSub (sub : List Char) : List Char → Bool
  | [] => sub.isEmpty
  | c :: rest => sub.isPrefixOf (c :: rest) || containsSub sub rest

/-- After at least one regex-`.` character (which does not match line
terminators), some alternative matches. -/
def matchDotPlusThen (alts : List (List Char)) : List Char → Bool
  | [] => false
  | c :: rest =>
    if c = '\n' || c = '\r' then false
    else alts.any (fun a => a.isPrefixOf rest) || matchDotPlusThen alts rest

/-- Try a positional predicate at every suffix of the list (an unanchored
regex scan). -/
def scanStarts (p : List Char → Bool) : List Char → Bool
  | [] => p []
  | c :: rest => p (c :: rest) || scanStarts p rest

/-- Model of `/no .+ (found|entries)/i.test(text)`: somewhere in the
lowercased text, `"no "` followed by at least one non-terminator character
and then `" found"` or `" entries"`. -/
def testNoFound (text : String) : Bool :=
  scanStarts (fun l =>
    ("no ".data).isPrefixOf l &&
      matchDotPlusThen [" found".data, " entries".data] (l.drop 3))
    (jsToLower text).data

/-- Model of `/add( a)? new/i.test(text)`. -/
def testAddNew (text : String) : Bool :=
  containsSub "add new".data (jsToLower text).data ||
    containsSub "add a new".data (jsToLower text).data

/-- Model of `/track your work/i.test(text) || /time entry/i.test(text)`. -/
def testTrackOrEntry (text : String) : Bool :=
  containsSub "track your work".data (jsToLower text).data ||
    containsSub "time entry".data (jsToLower text).data

/-- Model of `/total/i.test(text)`. -/
def testTotal (text : String) : Bool :=
  containsSub "total".data (jsToLower text).data

/-- Model of `/time entries?/i.test(text)`: the trailing `s` is optional, so
the regex matches exactly when the text contains `"time entrie"`. -/
def testTimeEntries (text : String) : Bool :=
  containsSub "time entrie".data (jsToLower text).data

/-- Model of suggestTranslationKey: the pattern overrides in source order,
then the generic slug — `"ui."` prefixed to the first three dot-segments of
the cleaned text when there are more than three, else to the whole cleaned
text. -/
def suggestTranslationKey (text : String) : String :=
  if testNoFound text then "timeEntry.noEntries"
  else if testAddNew text then "timeEntry.addNewEntry"
  else if testTrackOrEntry text then "timeEntry.addNewEntryPrompt"
  else if testTotal text then "general.total"
  else if testTimeEntries text then "timeEntry.entries"
  else if 3 < (jsSplitDot (cleanTextOf text)).length then
    "ui." ++ joinSegs ((jsSplitDot (cleanTextOf text)).take 3)
  else "ui." ++ cleanTextOf text

/-- A well-formed DotPath in the spec's sense: all `"."`-separated segments
are non-empty. -/
def wellFormedDotPath (p : String) : Bool :=
  (jsSplitDot p).all (fun s => s != "")

/-- Claim C9 counterexample: for the punctuation-only input `"!!!"` no
override rule fires and the cleaned text is empty, so suggestTranslationKey
returns `"ui."` — a string with a trailing dot whose final segment is
empty, hence not a well-formed DotPath. -/
theorem suggestTranslationKey_counterexample :
    suggestTranslationKey "!!!" = "ui." ∧
      wellFormedDotPath (suggestTranslationKey "!!!") = false := by
  decide

/-- Head predicate used to state when the cleaned text starts cleanly. -/
def headNotSpace : List Char → Bool
  | [] => true
  | c :: _ => !isSpaceChar c

/-- Last-character predicate used to state when the cleaned text ends
cleanly. -/
def lastNotSpace : List Char → Bool
  | [] => true
  | [c] => !isSpaceChar c
  | _ :: c :: cs => lastNotSpace (c :: cs)

theorem strippedOf_no_dot (text : String) : '.' ∉ (strippedOf text).data := by
  intro h
  exact absurd (List.of_mem_filter h) (by decide)

theorem collapse_true_head_ne : ∀ (l : List Char), '.' ∉ l →
    lastNotSpace l = true → l ≠ [] →
    ∀ t, splitCharList '.' (collapseGo true l) ≠ [] :: t
  | [], _, _, hne => absurd rfl hne
  | c :: cs, hdot, hlast, _ => by
    intro t hsp
    by_cases hc : isSpaceChar c = true
    · have hred : collapseGo true (c :: cs) = collapseGo true cs := by
        simp [collapseGo, hc]
      rw [hred] at hsp
      cases cs with
      | nil => simp [lastNotSpace, hc] at hlast
      | cons d ds =>
        exact collapse_true_head_ne (d :: ds)
          (fun hm => hdot (List.mem_cons_of_mem c hm)) hlast (by simp) t hsp
    · have hred : collapseGo true (c :: cs) = c :: collapseGo false cs := by
        simp [collapseGo, hc]
      rw [hred] at hsp
      have hcd : c ≠ '.' := fun he => hdot (he ▸ List.mem_cons_self c cs)
      rw [splitCharList_cons_ne '.' c _ hcd] at hsp
      cases hX : splitCharList '.' (collapseGo false cs) with
      | nil => exact splitCharList_ne_nil _ _ hX
      | cons a b =>
        rw [hX] at hsp
        simp [prependHead] at hsp

theorem collapse_tail_ne : ∀ (l : List Char) (b : Bool), '.' ∉ l →
    lastNotSpace l = true →
    ∀ p ∈ (splitCharList '.' (collapseGo b l)).tail, p ≠ []
  | [], b, _, _ => by
    intro p hp
    simp [collapseGo, splitCharList] at hp
  | c :: cs, b, hdot, hlast => by
    intro p hp hpe
    by_cases hc : isSpaceChar c = true
    · cases cs with
      | nil => simp [lastNotSpace, hc] at hlast
      | cons d ds =>
        have hdot' : '.' ∉ (d :: ds) := fun hm => hdot (List.mem_cons_of_mem c hm)
        have hlast' : lastNotSpace (d :: ds) = true := hlast
        cases b with
        | true =>
          have hred : collapseGo true (c :: d :: ds) = collapseGo true (d :: ds) := by
            simp [collapseGo, hc]
          rw [hred] at hp
          exact collapse_tail_ne (d :: ds) true hdot' hlast' p hp hpe
        | false =>
          have hred : collapseGo false (c :: d :: ds) =
              '.' :: collapseGo true (d :: ds) := by
            simp [collapseGo, hc]
          rw [hred] at hp
          have hsp : splitCharList '.' ('.' :: collapseGo true (d :: ds)) =
              [] :: splitCharList '.' (collapseGo true (d :: ds)) := by
            simp [splitCharList]
          rw [hsp] at hp
          simp only [List.tail_cons] at hp
          cases hX : splitCharList '.' (collapseGo true (d :: ds)) with
          | nil => exact splitCharList_ne_nil _ _ hX
          | cons a bs =>
            rw [hX] at hp
            rcases List.mem_cons.mp hp with rfl | hp'
            · rw [hpe] at hX
              exact collapse_true_head_ne (d :: ds) hdot' hlast' (by simp) bs hX
            · exact collapse_tail_ne (d :: ds) true hdot' hlast' p
                (by rw [hX]; simpa using hp') hpe
    · have hred : collapseGo b (c :: cs) = c :: collapseGo false cs := by
        simp [collapseGo, hc]
      rw [hred] at hp
      have hcd : c ≠ '.' := fun he => hdot (he ▸ List.mem_cons_self c cs)
      rw [splitCharList_cons_ne '.' c _ hcd] at hp
      cases hX : splitCharList '.' (collapseGo false cs) with
      | nil => exact splitCharList_ne_nil _ _ hX
      | cons a bs =>
        rw [hX] at hp
        simp only [prependHead, List.tail_cons] at hp
        cases cs with
        | nil =>
          have hnil : splitCharList '.' (collapseGo false ([] : List Char)) =
              [[]] := rfl
          rw [hnil] at hX
          injection hX with h1 h2
          rw [← h2] at hp
          exact absurd hp (List.not_mem_nil p)
        | cons d ds =>
          have hlast' : lastNotSpace (d :: ds) = true := hlast
          exact collapse_tail_ne (d :: ds) false
            (fun hm => hdot (List.mem_cons_of_mem c hm)) hlast' p
            (by rw [hX]; simpa using hp) hpe

theorem collapse_false_all_ne (l : List Char) (hdot : '.' ∉ l) (hne : l ≠ [])
    (hhead : headNotSpace l = true) (hlast : lastNotSpace l = true) :
    ∀ p ∈ splitCharList '.' (collapseGo false l), p ≠ [] := by
  intro p hp hpe
  cases l with
  | nil => exact hne rfl
  | cons c cs =>
    have hc : isSpaceChar c = false := by
      simpa [headNotSpace] using hhead
    have hred : collapseGo false (c :: cs) = c :: collapseGo false cs := by
      simp [collapseGo, hc]
    rw [hred] at hp
    have hcd : c ≠ '.' := fun he => hdot (he ▸ List.mem_cons_self c cs)
    rw [splitCharList_cons_ne '.' c _ hcd] at hp
    cases hX : splitCharList '.' (collapseGo false cs) with
    | nil => exact splitCharList_ne_nil _ _ hX
    | cons a bs =>
      rw [hX] at hp
      simp only [prependHead] at hp
      rcases List.mem_cons.mp hp with rfl | hp'
      · exact List.noConfusion hpe
      · cases cs with
        | nil =>
          have hnil : splitCharList '.' (collapseGo false ([] : List Char)) =
              [[]] := rfl
          rw [hnil] at hX
          injection hX with h1 h2
          rw [← h2] at hp'
          exact absurd hp' (List.not_mem_nil p)
        | cons d ds =>
          have hlast' : lastNotSpace (d :: ds) = true := hlast
          exact collapse_tail_ne (d :: ds) false
            (fun hm => hdot (List.mem_cons_of_mem c hm)) hlast' p
            (by rw [hX]; simpa using hp') hpe

theorem cleanText_segments_ne (text : String)
    (h1 : (strippedOf text).data ≠ [])
    (h2 : headNotSpace (strippedOf text).data = true)
    (h3 : lastNotSpace (strippedOf text).data = true) :
    ∀ s ∈ jsSplitDot (cleanTextOf text), s ≠ "" := by
  intro s hs he
  obtain ⟨p, hp, rfl⟩ := List.mem_map.mp hs
  have hne := collapse_false_all_ne (strippedOf text).data
    (strippedOf_no_dot text) h1 h2 h3 p hp
  exact hne (congrArg String.data he)

theorem ui_dot_append (X : String) : "ui." ++ X = "ui" ++ "." ++ X :=
  string_data_ext rfl

/-- Claim C9 amended: suggestTranslationKey returns a well-formed DotPath
(a string of `.`-separated non-empty segments) whenever an override rule
fires, or the trimmed, lowercased, punctuation-stripped text is non-empty
and neither begins nor ends with a whitespace character.  The
counterexample forces the proviso: input consisting only of punctuation or
whitespace (or with punctuation next to whitespace at either end) yields a
trailing dot or an empty segment. -/
theorem suggestTranslationKey_wellFormed (text : String)
    (h : (testNoFound text || testAddNew text || testTrackOrEntry text ||
        testTotal text || testTimeEntries text) = true ∨
      ((strippedOf text).data ≠ [] ∧
        headNotSpace (strippedOf text).data = true ∧
        lastNotSpace (strippedOf text).data = true)) :
    wellFormedDotPath (suggestTranslationKey text) = true := by
  by_cases h1 : testNoFound text = true
  · simp only [suggestTranslationKey, if_pos h1]; decide
  by_cases h2 : testAddNew text = true
  · simp only [suggestTranslationKey, if_neg h1, if_pos h2]; decide
  by_cases h3 : testTrackOrEntry text = true
  · simp only [suggestTranslationKey, if_neg h1, if_neg h2, if_pos h3]; decide
  by_cases h4 : testTotal text = true
  · simp only [suggestTranslationKey, if_neg h1, if_neg h2, if_neg h3,
      if_pos h4]; decide
  by_cases h5 : testTimeEntries text = true
  · simp only [suggestTranslationKey, if_neg h1, if_neg h2, if_neg h3,
      if_neg h4, if_pos h5]; decide
  have hdef : (strippedOf text).data ≠ [] ∧
      headNotSpace (strippedOf text).data = true ∧
      lastNotSpace (strippedOf text).data = true := by
    rcases h with h | h
    · rw [Bool.eq_false_iff.mpr h1, Bool.eq_false_iff.mpr h2,
        Bool.eq_false_iff.mpr h3, Bool.eq_false_iff.mpr h4,
        Bool.eq_false_iff.mpr h5] at h
      exact absurd h (by decide)
    · exact h
  obtain ⟨hne, hhead, hlast⟩ := hdef
  have hsegs := cleanText_segments_ne text hne hhead hlast
  simp only [suggestTranslationKey, if_neg h1, if_neg h2, if_neg h3,
    if_neg h4, if_neg h5]
  by_cases h6 : 3 < (jsSplitDot (cleanTextOf text)).length
  · rw [if_pos h6, ui_dot_append, wellFormedDotPath, jsSplitDot_append_dot]
    have htake_ne : (jsSplitDot (cleanTextOf text)).take 3 ≠ [] := by
      intro hnil
      rcases List.take_eq_nil_iff.mp hnil with hx | hx
      · exact absurd hx (by decide)
      · rw [hx] at h6
        exact Nat.not_lt_zero _ h6
    rw [jsSplitDot_joinSegs _ htake_ne
      (fun s hs => mem_jsSplitDot_no_dot (List.mem_of_mem_take hs))]
    rw [List.all_eq_true]
    intro s hsmem
    rcases List.mem_append.mp hsmem with hsm | hsm
    · rw [show jsSplitDot "ui" = ["ui"] from rfl] at hsm
      rw [List.mem_singleton.mp hsm]
      decide
    · have := hsegs s (List.mem_of_mem_take hsm)
      exact bne_iff_ne.mpr this
  · rw [if_neg h6, ui_dot_append, wellFormedDotPath, jsSplitDot_append_dot]
    rw [List.all_eq_true]
    intro s hsmem
    rcases List.mem_append.mp hsmem with hsm | hsm
    · rw [show jsSplitDot "ui" = ["ui"] from rfl] at hsm
      rw [List.mem_singleton.mp hsm]
      decide
    · exact bne_iff_ne.mpr (hsegs s hsm)

theorem suggestTranslationKey_wellFormed_witness :
    wellFormedDotPath (suggestTranslationKey "Save your changes now") = true :=
  suggestTranslationKey_wellFormed "Save your changes now"
    (Or.inr (by decide))

end NextIntl
